import Mathlib

/-!
Shallow embedding of `rust-daily` (src/src/lib.rs).

The library exposes read-only access to a fixed set of text documents
("tablets"), splits them into sub-sections ("shards") on a separator line,
and renders any tablet or shard as normalized markdown.

Modelling conventions:
* Rust `String` / `&str` values are `Str := List Char`; `str::replace`,
  `str::trim`, `str::contains` are implemented below over `List Char`
  (whitespace is ASCII whitespace, the only kind the documents use).
* The filesystem is a function from paths to an optional list of line-read
  results, mirroring `File::open` (can fail) and `BufRead::lines` (each
  line read can fail): `FS := Str → Option (List (Except IoError Str))`.
* `usize` arithmetic is `Nat` with explicit wrapping mod `2 ^ 64` where the
  source can underflow or overflow (`num - 1`, `end - start + 1`,
  `count - 1`): this is the unchecked-arithmetic semantics of the compiled
  code (a build with overflow checks panics at the same spots instead).
* A Rust `panic!` / `.expect(..)` (in `From<Tablet> for Shards` and in
  `Registry::tablet`) is modelled as `Option.none`.
-/

/-- Characters of a Rust string. -/
abbrev Str : Type := List Char

/-- One of the two `std::io` failure points the library hits: `File::open`
failing, or one `BufRead::lines` item failing. -/
inductive IoError where
  | notFound : IoError
  | lineRead : Nat → IoError
deriving DecidableEq

instance {ε α : Type} [DecidableEq ε] [DecidableEq α] : DecidableEq (Except ε α) := fun a b =>
  match a, b with
  | .ok x, .ok y =>
    if h : x = y then .isTrue (by rw [h]) else .isFalse (by simp [h])
  | .ok _, .error _ => .isFalse (by simp)
  | .error _, .ok _ => .isFalse (by simp)
  | .error e, .error f =>
    if h : e = f then .isTrue (by rw [h]) else .isFalse (by simp [h])

/-- The filesystem: a path resolves to `none` (`File::open` fails) or to the
list of per-line read results produced by `BufRead::lines`. -/
def FS : Type := Str → Option (List (Except IoError Str))

/-- The constant `2 ^ 64`, the modulus of `usize` arithmetic on the target. -/
def U64 : Nat := 2 ^ 64

/-- Wrapping `usize` subtraction `a - b` (two's-complement wraparound, the
behaviour of the compiled unchecked code). -/
def usub (a b : Nat) : Nat := (a + U64 - b % U64) % U64

/-- Whether `pat` starts the string `s` (the matching step of
`str::replace` and `str::contains`). -/
def startsWith : Str → Str → Bool
  | [], _ => true
  | _ :: _, [] => false
  | p :: ps, c :: cs => p = c && startsWith ps cs

/-- Rust `str::contains`: `pat` occurs as a contiguous substring of `s`. -/
def containsSub : Str → Str → Bool
  | [], pat => pat.isEmpty
  | c :: rest, pat => startsWith pat (c :: rest) || containsSub rest pat

/-- The scan of Rust `str::replace`, structurally recursive on a fuel that
bounds the number of scanned characters: at each position, a (non-empty)
match of `pat` emits `rep` and skips the matched characters, otherwise the
character is kept. With `fuel ≥ s.length` this is exactly `str::replace`'s
left-to-right non-overlapping replacement. -/
def replaceGo : Nat → Str → Str → Str → Str
  | 0, _, _, _ => []
  | _ + 1, [], _, _ => []
  | fuel + 1, c :: rest, pat, rep =>
    if pat ≠ [] ∧ startsWith pat (c :: rest) = true then
      rep ++ replaceGo fuel ((c :: rest).drop pat.length) pat rep
    else
      c :: replaceGo fuel rest pat rep

/-- Rust `str::replace`: replace every non-overlapping occurrence of `pat`
in `s` by `rep`, scanning left to right. -/
def replace (s pat rep : Str) : Str := replaceGo s.length s pat rep

/-- Rust `str::trim`: drop leading and trailing whitespace. -/
def trim (s : Str) : Str :=
  ((s.dropWhile Char.isWhitespace).reverse.dropWhile Char.isWhitespace).reverse

/-- The type `Tablet` (= `Shard`): a path plus an inclusive `(start, end)` line range.
Mirrors `struct Tablet(&'static str, (usize, usize))`. -/
structure Tablet where
  path : Str
  range : Nat × Nat
deriving DecidableEq

namespace Tablet

/-- Accessor `Tablet::start`: which line to start reading from. -/
def start (t : Tablet) : Nat := t.range.1

/-- Accessor `Tablet::end`: which line to stop reading on. -/
def «end» (t : Tablet) : Nat := t.range.2

/-- Accessor `Tablet::length`: `self.end() - self.start() + 1` in `usize`
arithmetic (wraps when `end < start`, and on `end - start = 2^64 - 1`). -/
def length (t : Tablet) : Nat := (usub t.«end» t.start + 1) % U64

end Tablet

namespace Transcriptor

/-- The constant `Transcriptor::SEPARATOR`. -/
def SEPARATOR : Str := "-----".toList

/-- The `//!` doc-comment marker removed by `line_fmt`. -/
def DOC_MARK : Str := "//!".toList

/-- The fence annotation for should-panic examples. -/
def FENCE_SP : Str := "```should_panic".toList

/-- The fence annotation for no-run examples. -/
def FENCE_NR : Str := "```no_run".toList

/-- The plain rust fence both annotations are rewritten to. -/
def FENCE_RS : Str := "```rust".toList

/-- The function `Transcriptor::line_fmt`: strip `//!`, rewrite the two special fence
annotations to ` ```rust `, trim, then append a newline. -/
def line_fmt (line : Str) : Str :=
  trim (replace (replace (replace line DOC_MARK []) FENCE_SP FENCE_RS) FENCE_NR FENCE_RS) ++ ['\n']

/-- The window of line-read results a tablet addresses:
`lines().skip(start).take(length)`. -/
def window (t : Tablet) (ls : List (Except IoError Str)) : List (Except IoError Str) :=
  (ls.drop t.start).take t.length

/-- The `for` loop of `Transcriptor::segmentation` over the window, with
`num` the `enumerate` counter and `ptr` the cursor: on a line containing the
separator push `(ptr, num - 1)` (wrapping `usize` subtraction) and set
`ptr = num + 1`; a line-read failure aborts with that error (`line?`).
Returns the pushed segments and the final `ptr`. -/
def segLoop : List (Except IoError Str) → Nat → Nat →
    Except IoError (List (Nat × Nat) × Nat)
  | [], _, ptr => .ok ([], ptr)
  | l :: rest, num, ptr =>
    match l with
    | .error e => .error e
    | .ok s =>
      if containsSub s SEPARATOR then
        match segLoop rest (num + 1) (num + 1) with
        | .error e => .error e
        | .ok (segs, p) => .ok ((ptr, usub num 1) :: segs, p)
      else
        segLoop rest (num + 1) ptr

/-- The function `Transcriptor::segmentation`: open the tablet's file, run the loop over
the window starting from `num = 0`, `ptr = tablet.start()`, then push the
final segment `(ptr, tablet.end())`. -/
def segmentation (fs : FS) (t : Tablet) : Except IoError (List (Nat × Nat)) :=
  match fs t.path with
  | none => .error .notFound
  | some ls =>
    match segLoop (window t ls) 0 t.start with
    | .error e => .error e
    | .ok (segs, ptr) => .ok (segs ++ [(ptr, t.«end»)])

/-- The accumulation loop of `Transcriptor::read`: append `line_fmt` of each
window line, aborting with the first line-read failure (`line?`). -/
def renderLoop : List (Except IoError Str) → Except IoError Str
  | [] => .ok []
  | l :: rest =>
    match l with
    | .error e => .error e
    | .ok s =>
      match renderLoop rest with
      | .error e => .error e
      | .ok r => .ok (line_fmt s ++ r)

/-- The function `Transcriptor::read`: open the file, concatenate `line_fmt` of every
window line, and trim the whole accumulated string. -/
def read (fs : FS) (t : Tablet) : Except IoError Str :=
  match fs t.path with
  | none => .error .notFound
  | some ls =>
    match renderLoop (window t ls) with
    | .error e => .error e
    | .ok contents => .ok (trim contents)

end Transcriptor

/-- The ordered list behind the `Shards` iterator of `tablet.shards()`:
each segment of `Transcriptor::segmentation` paired with the origin's path.
(`From<Tablet> for Shards` panics on a segmentation error via `.expect`;
the error is kept here and turned into `none` by `shardsOpt`.) -/
def shardsList (fs : FS) (t : Tablet) : Except IoError (List Tablet) :=
  match Transcriptor.segmentation fs t with
  | .error e => .error e
  | .ok segs => .ok (segs.map fun seg => ⟨t.path, seg⟩)

/-- The call `tablet.shards()` as used by `Registry::heap`: the `.expect` panic on an
unreadable tablet is modelled as `none`. -/
def shardsOpt (fs : FS) (t : Tablet) : Option (List Tablet) :=
  (shardsList fs t).toOption

namespace Registry

/-- The function `Registry::tablet`: open the path (panic → `none` when it cannot be
opened), count the `lines()` items (failed reads included, as
`lines().count()` counts `Err` items too), and build
`Tablet(path, (0, count - 1))` — wrapping when the file has zero lines. -/
def tablet (fs : FS) (p : Str) : Option Tablet :=
  match fs p with
  | none => none
  | some ls => some ⟨p, (0, usub ls.length 1)⟩

/-- The function `Registry::catalog` over the fixed path list (the list itself lives in
the `registry` module, external to the core): one whole-file tablet per
path, in list order; a panic anywhere is `none`. -/
def catalog (fs : FS) (paths : List Str) : Option (List Tablet) :=
  match paths with
  | [] => some []
  | p :: rest =>
    match tablet fs p, catalog fs rest with
    | some t, some ts => some (t :: ts)
    | _, _ => none

/-- The `flat_map` of `Registry::heap` over the catalog's tablets: the
shards of each tablet, concatenated in catalog order; a panic in any
`shards()` call is `none`. -/
def heapGo (fs : FS) : List Tablet → Option (List Tablet)
  | [] => some []
  | t :: rest =>
    match shardsOpt fs t, heapGo fs rest with
    | some sh, some hs => some (sh ++ hs)
    | _, _ => none

/-- The function `Registry::heap`: `catalog().iter().flat_map(|t| t.shards()).collect()`. -/
def heap (fs : FS) (paths : List Str) : Option (List Tablet) :=
  match catalog fs paths with
  | none => none
  | some ts => heapGo fs ts

end Registry

/-- A one-document filesystem: path `p` holds `doc` with every line
readable; all other paths fail to open. -/
def fsOf (p : Str) (doc : List Str) : FS :=
  fun q => if q = p then some (doc.map Except.ok) else none

/-! ## Pure description of the loops (all window lines readable) -/

/-- A line counts as a separator line when it contains the separator token
(`line.contains(SEPARATOR)`). -/
def isSepLine (s : Str) : Bool := containsSub s Transcriptor.SEPARATOR

/-- Line `i` of the line list `W` exists and is a separator line. -/
def sepAt (W : List Str) (i : Nat) : Prop :=
  i < W.length ∧ isSepLine (W.getD i []) = true

instance (W : List Str) (i : Nat) : Decidable (sepAt W i) := by
  unfold sepAt; infer_instance

/-- The segmentation loop on a window whose lines all read successfully:
the pure image of `segLoop` on `w.map Except.ok`. -/
def segPure : List Str → Nat → Nat → List (Nat × Nat) × Nat
  | [], _, ptr => ([], ptr)
  | s :: rest, num, ptr =>
    if isSepLine s then
      let r := segPure rest (num + 1) (num + 1)
      ((ptr, usub num 1) :: r.1, r.2)
    else
      segPure rest (num + 1) ptr

/-- On an all-readable window, `segLoop` returns exactly `segPure`. -/
theorem segLoop_eq_segPure (w : List Str) :
    ∀ n p, Transcriptor.segLoop (w.map Except.ok) n p = .ok (segPure w n p) := by
  induction w with
  | nil => intro n p; rfl
  | cons s rest ih =>
    intro n p
    simp only [List.map_cons, Transcriptor.segLoop, segPure]
    by_cases h : isSepLine s
    · simp only [isSepLine] at h
      simp [isSepLine, h, ih (n + 1) (n + 1)]
    · simp only [isSepLine] at h
      simp [isSepLine, h, ih (n + 1) p]

/-- Subtracting 1 from a positive `usize` below the modulus is ordinary
subtraction. -/
theorem usub_one (n : Nat) (h1 : 1 ≤ n) (h2 : n < U64) : usub n 1 = n - 1 := by
  have hU : (1 : Nat) < U64 := by simp [U64]
  unfold usub
  rw [Nat.mod_eq_of_lt hU]
  have : n + U64 - 1 = (n - 1) + U64 := by omega
  rw [this, Nat.add_mod_right, Nat.mod_eq_of_lt (by omega)]

/-- Subtracting 0 is the identity on `usize` values below the modulus. -/
theorem usub_zero (n : Nat) (h : n < U64) : usub n 0 = n := by
  unfold usub
  rw [Nat.zero_mod, Nat.sub_zero, Nat.add_mod_right, Nat.mod_eq_of_lt h]

/-- The subtraction `0 - 1` wraps to `2 ^ 64 - 1`. -/
theorem usub_zero_one : usub 0 1 = U64 - 1 := by
  have hU : (1 : Nat) < U64 := by simp [U64]
  unfold usub
  rw [Nat.mod_eq_of_lt hU, Nat.zero_add, Nat.mod_eq_of_lt (by omega)]

/-- A window without separator lines closes no segment and keeps the
cursor at its initial position. -/
theorem segPure_nosep (w : List Str) :
    ∀ n p, (∀ s ∈ w, isSepLine s = false) → segPure w n p = ([], p) := by
  induction w with
  | nil => intro n p _; rfl
  | cons s rest ih =>
    intro n p h
    have hs : isSepLine s = false := h s (List.mem_cons_self s rest)
    simp only [segPure, hs, Bool.false_eq_true, if_false]
    exact ih (n + 1) p fun x hx => h x (List.mem_cons_of_mem s hx)

/-! ## The chain shape of a segment list -/

/-- The predicate `segsChain p S q`: the segment list `S` starts at `p`, each segment
begins two lines after the previous one ends (the skipped line being the
separator), and the line after the last segment's end, plus one, is `q`.
An empty `S` forces `q = p`. -/
def segsChain : Nat → List (Nat × Nat) → Nat → Prop
  | p, [], q => q = p
  | p, ab :: rest, q => ab.1 = p ∧ segsChain (ab.2 + 2) rest q

/-- Appending the final segment `(q, e)` to a chain ending at `q` gives a
chain ending at `e + 2`. -/
theorem segsChain_append_final (S : List (Nat × Nat)) :
    ∀ p q e, segsChain p S q → segsChain p (S ++ [(q, e)]) (e + 2) := by
  induction S with
  | nil => intro p q e h; cases h; exact ⟨rfl, rfl⟩
  | cons ab rest ih =>
    intro p q e h
    exact ⟨h.1, ih (ab.2 + 2) q e h.2⟩

/-- Every member of a chain starting at `p` starts at or after `p`,
provided every segment's start is at most one past its end. -/
theorem segsChain_lower_bound (S : List (Nat × Nat)) :
    ∀ p q, segsChain p S q → (∀ ab ∈ S, ab.1 ≤ ab.2 + 1) →
      ∀ ab ∈ S, p ≤ ab.1 := by
  induction S with
  | nil => intro p q _ _ ab hab; cases hab
  | cons hd rest ih =>
    intro p q h hw ab hab
    rcases List.mem_cons.mp hab with rfl | hmem
    · exact h.1 ▸ Nat.le_refl _
    · have h1 : p = hd.1 := h.1.symm
      have hhd : hd.1 ≤ hd.2 + 1 := hw hd (List.mem_cons_self hd rest)
      have := ih (hd.2 + 2) q h.2 (fun x hx => hw x (List.mem_cons_of_mem hd hx)) ab hmem
      omega

/-- A chain of segments, each starting at most one past its end, is ordered
and non-overlapping: every earlier segment ends strictly before every later
one starts. -/
theorem segsChain_pairwise (S : List (Nat × Nat)) :
    ∀ p q, segsChain p S q → (∀ ab ∈ S, ab.1 ≤ ab.2 + 1) →
      S.Pairwise (fun x y => x.2 < y.1) := by
  induction S with
  | nil => intro p q _ _; exact List.Pairwise.nil
  | cons hd rest ih =>
    intro p q h hw
    refine List.Pairwise.cons ?_ ?_
    · intro y hy
      have := segsChain_lower_bound rest (hd.2 + 2) q h.2
        (fun x hx => hw x (List.mem_cons_of_mem hd hx)) y hy
      omega
    · exact ih (hd.2 + 2) q h.2 fun x hx => hw x (List.mem_cons_of_mem hd hx)

/-! ## The master invariant of the segmentation loop

For a window `W` (all lines readable), the loop run on the suffix
`W.drop n` with cursor `p ≤ n`, `1 ≤ n`, and no separator among the
already-scanned lines `[p, n)`, produces a chain of segments whose
boundaries sit exactly on the separator lines of `W`. -/

theorem segPure_master (W : List Str) (hU : W.length < U64) :
    ∀ w n p, W.drop n = w → 1 ≤ n → p ≤ n →
    (∀ i, p ≤ i → i < n → ¬ sepAt W i) →
    segsChain p (segPure w n p).1 (segPure w n p).2
    ∧ p ≤ (segPure w n p).2
    ∧ (segPure w n p).2 ≤ n + w.length
    ∧ (∀ ab ∈ (segPure w n p).1, ab.1 ≤ ab.2 + 1)
    ∧ (∀ ab ∈ (segPure w n p).1, sepAt W (ab.2 + 1))
    ∧ (∀ ab ∈ (segPure w n p).1, ∀ i, ab.1 ≤ i → i ≤ ab.2 → ¬ sepAt W i)
    ∧ (∀ i, (segPure w n p).2 ≤ i → i < W.length → ¬ sepAt W i)
    ∧ (∀ i, p ≤ i → i < W.length → ¬ sepAt W i →
        (∃ ab ∈ (segPure w n p).1, ab.1 ≤ i ∧ i ≤ ab.2) ∨ (segPure w n p).2 ≤ i) := by
  intro w
  induction w with
  | nil =>
    intro n p hdrop hn hp hpre
    have hlen : W.length ≤ n := by
      have := List.drop_eq_nil_iff.mp hdrop
      omega
    refine ⟨rfl, Nat.le_refl p, by simp only [segPure]; omega, ?_, ?_, ?_, ?_, ?_⟩
    · intro ab hab; cases hab
    · intro ab hab; cases hab
    · intro ab hab; cases hab
    · intro i hpi hiW; exact hpre i hpi (by omega)
    · intro i hpi hiW _; exact Or.inr hpi
  | cons s rest ih =>
    intro n p hdrop hn hp hpre
    have hnW : n < W.length := by
      by_contra hcon
      have : W.drop n = [] := List.drop_eq_nil_iff.mpr (by omega)
      rw [this] at hdrop; cases hdrop
    have hsplit : W.drop n = W[n] :: W.drop (n + 1) := List.drop_eq_getElem_cons hnW
    rw [hdrop] at hsplit
    have hs : s = W[n] := (List.cons.injEq _ _ _ _ ▸ hsplit).1
    have hrest : W.drop (n + 1) = rest := ((List.cons.injEq _ _ _ _ ▸ hsplit).2).symm
    have hgetD : W.getD n [] = W[n] := List.getD_eq_getElem W [] hnW
    have hsep_iff : sepAt W n ↔ isSepLine s = true := by
      unfold sepAt
      rw [hgetD, ← hs]
      exact ⟨fun h => h.2, fun h => ⟨hnW, h⟩⟩
    by_cases hsl : isSepLine s
    · -- separator at absolute index n: push (p, n - 1), cursor to n + 1
      have hu : usub n 1 = n - 1 := usub_one n hn (by omega)
      obtain ⟨ih1, ih2, ih3, ih4, ih5, ih6, ih7, ih8⟩ :=
        ih (n + 1) (n + 1) hrest (by omega) (Nat.le_refl _) (fun i h1 h2 => absurd h1 (by omega))
      have hres : segPure (s :: rest) n p =
          ((p, usub n 1) :: (segPure rest (n + 1) (n + 1)).1,
            (segPure rest (n + 1) (n + 1)).2) := by
        simp [segPure, hsl]
      rw [hres]
      set r := segPure rest (n + 1) (n + 1) with hr
      refine ⟨?_, ?_, ?_, ?_, ?_, ?_, ?_, ?_⟩
      · refine ⟨rfl, ?_⟩
        show segsChain ((p, usub n 1).2 + 2) r.1 r.2
        rw [hu]
        show segsChain (n - 1 + 2) r.1 r.2
        have h12 : n - 1 + 2 = n + 1 := by omega
        rw [h12]
        exact ih1
      · show p ≤ r.2
        omega
      · show r.2 ≤ n + (s :: rest).length
        simp only [List.length_cons]
        omega
      · intro ab hab
        rcases List.mem_cons.mp hab with rfl | hmem
        · simp only [hu]; omega
        · exact ih4 ab hmem
      · intro ab hab
        rcases List.mem_cons.mp hab with rfl | hmem
        · simp only [hu]
          have : n - 1 + 1 = n := by omega
          rw [this]; exact hsep_iff.mpr hsl
        · exact ih5 ab hmem
      · intro ab hab i h1 h2
        rcases List.mem_cons.mp hab with rfl | hmem
        · simp only [hu] at h2
          exact hpre i h1 (by omega)
        · exact ih6 ab hmem i h1 h2
      · exact ih7
      · intro i hpi hiW hns
        by_cases hin : i < n
        · refine Or.inl ⟨(p, usub n 1), List.mem_cons_self _ _, hpi, ?_⟩
          simp only [hu]; omega
        · by_cases hieq : i = n
          · exact absurd (hieq ▸ hsep_iff.mpr hsl) hns
          · rcases ih8 i (by omega) hiW hns with ⟨ab, hab, h1, h2⟩ | hge
            · exact Or.inl ⟨ab, List.mem_cons_of_mem _ hab, h1, h2⟩
            · exact Or.inr hge
    · -- no separator at index n: the cursor stays at p
      have hres : segPure (s :: rest) n p = segPure rest (n + 1) p := by
        simp [segPure, hsl]
      have hpre' : ∀ i, p ≤ i → i < n + 1 → ¬ sepAt W i := by
        intro i h1 h2
        by_cases hieq : i = n
        · subst hieq; intro hcon; exact hsl (hsep_iff.mp hcon)
        · exact hpre i h1 (by omega)
      obtain ⟨ih1, ih2, ih3, ih4, ih5, ih6, ih7, ih8⟩ :=
        ih (n + 1) p hrest (by omega) (by omega) hpre'
      rw [hres]
      refine ⟨ih1, ih2, ?_, ih4, ih5, ih6, ih7, ih8⟩
      simp only [List.length_cons]; omega

/-! ## Bridging `segmentation` / `read` to their pure descriptions -/

/-- The window of an all-readable file is the mapped window of its lines. -/
theorem window_map_ok (t : Tablet) (W : List Str) :
    Transcriptor.window t (W.map Except.ok) =
      ((W.drop t.start).take t.length).map Except.ok := by
  unfold Transcriptor.window
  rw [← List.map_drop, ← List.map_take]

/-- A whole-document tablet (`start = 0`, `end + 1 = line count < 2^64`)
has `length()` equal to the line count. -/
theorem length_whole (t : Tablet) (L : Nat) (hs : t.start = 0)
    (he : t.«end» + 1 = L) (hU : L < U64) : t.length = L := by
  unfold Tablet.length
  rw [hs, usub_zero t.«end» (by omega), Nat.mod_eq_of_lt (by omega)]
  omega

/-- On an all-readable file, `segmentation` succeeds with the pure loop's
segments plus the final `(ptr, end)` segment. -/
theorem segmentation_ok (fs : FS) (t : Tablet) (W : List Str)
    (hfs : fs t.path = some (W.map Except.ok)) :
    Transcriptor.segmentation fs t =
      .ok ((segPure ((W.drop t.start).take t.length) 0 t.start).1 ++
        [((segPure ((W.drop t.start).take t.length) 0 t.start).2, t.«end»)]) := by
  rcases h : segPure ((W.drop t.start).take t.length) 0 t.start with ⟨segs, pf⟩
  simp only [Transcriptor.segmentation, hfs, window_map_ok, segLoop_eq_segPure, h]

/-- The accumulation loop of `read` on an all-readable window: the pure
image of `renderLoop` on `w.map Except.ok`. -/
def renderPure : List Str → Str
  | [] => []
  | s :: rest => Transcriptor.line_fmt s ++ renderPure rest

/-- On an all-readable window, `renderLoop` returns exactly `renderPure`. -/
theorem renderLoop_eq_renderPure (w : List Str) :
    Transcriptor.renderLoop (w.map Except.ok) = .ok (renderPure w) := by
  induction w with
  | nil => rfl
  | cons s rest ih =>
    simp only [List.map_cons, Transcriptor.renderLoop, ih, renderPure]

/-- On an all-readable file, `read` succeeds with the trimmed concatenation
of the formatted window lines. -/
theorem read_ok (fs : FS) (t : Tablet) (W : List Str)
    (hfs : fs t.path = some (W.map Except.ok)) :
    Transcriptor.read fs t =
      .ok (trim (renderPure ((W.drop t.start).take t.length))) := by
  simp only [Transcriptor.read, hfs, window_map_ok, renderLoop_eq_renderPure]

/-! ## Concrete documents used by witnesses and counterexamples -/

/-- A sample path. -/
def pDoc : Str := "notes.rs".toList

/-- Three lines with a separator in the middle. -/
def docSep : List Str := [("intro").toList, ("-----").toList, ("body").toList]

/-- Five lines with separators at indices 1 and 3. -/
def docTwoSep : List Str :=
  [("a").toList, ("-----").toList, ("b").toList, ("-----").toList, ("c").toList]

/-- A document whose first line is a separator. -/
def docSepFirst : List Str := [("-----").toList, ("x").toList, ("y").toList]

/-- A separator-free document. -/
def docPlain : List Str := [("one").toList, ("two").toList]

/-- A single doc-comment line. -/
def docHello : List Str := [("//! Hello").toList]

/-- A single no-run fence line. -/
def docNoRun : List Str := [("```no_run").toList]

/-! ## Claim C1 -/

/-- Claim C1, as stated, is false: on the document
`["intro", "-----", "body"]` with whole-document reference `(0, 2)`,
segmentation returns `[(0, 0), (2, 2)]`, and the separator's own index `1`,
although inside `[R.start, R.end] = [0, 2]`, is covered by no sub-range:
the union of the sub-ranges has a gap at every separator line. -/
theorem C1_coverage_gap_cex :
    Transcriptor.segmentation (fsOf pDoc docSep) ⟨pDoc, (0, 2)⟩ = .ok [(0, 0), (2, 2)] ∧
      (0 : Nat) ≤ 1 ∧ (1 : Nat) ≤ 2 ∧
      ∀ ab ∈ [((0 : Nat), (0 : Nat)), ((2 : Nat), (2 : Nat))], ¬ (ab.1 ≤ 1 ∧ 1 ≤ ab.2) := by
  refine ⟨by decide, by decide, by decide, by decide⟩

/-- Claim C1, amended. For a whole-document reference `R` (`start = 0`,
`end + 1` = the line count, all lines readable, the first line not a
separator), segmentation returns a nonempty segment list `S` that, together
with the separator lines, partitions `[R.start, R.end]`: `S` is a chain
starting at `R.start` whose consecutive segments are separated by exactly
one line, each such boundary line — and no line inside any segment — being
a separator line, the last segment ending at `R.end`; the segments are
ordered and pairwise non-overlapping, and a line of the range lies in some
segment exactly when it is not a separator line. (As stated the claim
fails: a separator line belongs to no sub-range, so the union has a gap at
each separator; moreover the loop closes segments at window-relative, not
absolute, indices, which coincide only because `R.start = 0`.) -/
theorem segmentation_whole_doc (fs : FS) (t : Tablet) (W : List Str)
    (hfs : fs t.path = some (W.map Except.ok))
    (hstart : t.start = 0)
    (hend : t.«end» + 1 = W.length)
    (hU : W.length < U64)
    (h0 : ¬ sepAt W 0) :
    ∃ S, Transcriptor.segmentation fs t = .ok S ∧ S ≠ [] ∧
      segsChain t.start S (t.«end» + 2) ∧
      S.Pairwise (fun x y => x.2 < y.1) ∧
      (∀ ab ∈ S, ∀ i, ab.1 ≤ i → i ≤ ab.2 → ¬ sepAt W i) ∧
      (∀ ab ∈ S, sepAt W (ab.2 + 1) ∨ ab.2 + 1 = W.length) ∧
      (∀ i, i ≤ t.«end» → ((∃ ab ∈ S, ab.1 ≤ i ∧ i ≤ ab.2) ↔ ¬ sepAt W i)) := by
  cases W with
  | nil => simp at hend
  | cons s rest =>
    have hlen : t.length = (s :: rest).length :=
      length_whole t (s :: rest).length hstart hend hU
    have hseg := segmentation_ok fs t (s :: rest) hfs
    rw [hstart, hlen] at hseg
    have hwin : ((s :: rest).drop 0).take (s :: rest).length = s :: rest := by
      simp
    rw [hwin] at hseg
    have hgetD : (s :: rest).getD 0 [] = s := rfl
    have hsl : isSepLine s = false := by
      rcases Bool.eq_false_or_eq_true (isSepLine s) with h | h
      · exact absurd ⟨by simp, by rw [hgetD]; exact h⟩ h0
      · exact h
    have hstep : segPure (s :: rest) 0 0 = segPure rest 1 0 := by
      simp [segPure, hsl]
    rw [hstep] at hseg
    obtain ⟨m1, m2, m3, m4, m5, m6, m7, m8⟩ :=
      segPure_master (s :: rest) hU rest 1 0 rfl (Nat.le_refl 1) (Nat.zero_le 1)
        (fun i h1 h2 => by
          have : i = 0 := by omega
          subst this
          exact h0)
    have hWlen : (s :: rest).length = rest.length + 1 := by simp
    have hInterior : ∀ ab ∈ (segPure rest 1 0).1 ++ [((segPure rest 1 0).2, t.«end»)],
        ∀ i, ab.1 ≤ i → i ≤ ab.2 → ¬ sepAt (s :: rest) i := by
      intro ab hab i h1 h2
      rcases List.mem_append.mp hab with hmem | hfin
      · exact m6 ab hmem i h1 h2
      · have hab2 : ab = ((segPure rest 1 0).2, t.«end») := List.mem_singleton.mp hfin
        subst hab2
        intro hcon
        have hiW : i < (s :: rest).length := hcon.1
        exact m7 i h1 hiW hcon
    refine ⟨(segPure rest 1 0).1 ++ [((segPure rest 1 0).2, t.«end»)],
      hseg, by simp, ?_, ?_, hInterior, ?_, ?_⟩
    · rw [hstart]
      exact segsChain_append_final (segPure rest 1 0).1 0 (segPure rest 1 0).2 t.«end» m1
    · have hb : ∀ ab ∈ (segPure rest 1 0).1 ++ [((segPure rest 1 0).2, t.«end»)],
          ab.1 ≤ ab.2 + 1 := by
        intro ab hab
        rcases List.mem_append.mp hab with hmem | hfin
        · exact m4 ab hmem
        · have hab2 : ab = ((segPure rest 1 0).2, t.«end») := List.mem_singleton.mp hfin
          subst hab2
          show (segPure rest 1 0).2 ≤ t.«end» + 1
          rw [hend, hWlen] at *
          omega
      exact segsChain_pairwise _ 0 (t.«end» + 2)
        (segsChain_append_final (segPure rest 1 0).1 0 (segPure rest 1 0).2 t.«end» m1) hb
    · intro ab hab
      rcases List.mem_append.mp hab with hmem | hfin
      · exact Or.inl (m5 ab hmem)
      · have hab2 : ab = ((segPure rest 1 0).2, t.«end») := List.mem_singleton.mp hfin
        subst hab2
        exact Or.inr hend
    · intro i hi
      constructor
      · rintro ⟨ab, hab, h1, h2⟩
        exact hInterior ab hab i h1 h2
      · intro hns
        have hiW : i < (s :: rest).length := by omega
        rcases m8 i (Nat.zero_le i) hiW hns with ⟨ab, hab, h1, h2⟩ | hge
        · exact ⟨ab, List.mem_append_left _ hab, h1, h2⟩
        · exact ⟨((segPure rest 1 0).2, t.«end»),
            List.mem_append_right _ (List.mem_singleton.mpr rfl), hge, hi⟩

/-- Claim C1. The amended claim proved: a whole-document reference's
segmentation is an ordered, non-overlapping chain of sub-ranges covering
`[R.start, R.end]` exactly up to the separator lines, which are consumed as
boundaries (closing `[ptr, i - 1]` at each separator index `i` — the
window-relative index, which equals the absolute one because
`R.start = 0`). -/
theorem C1_partition_up_to_separators (fs : FS) (t : Tablet) (W : List Str)
    (hfs : fs t.path = some (W.map Except.ok))
    (hstart : t.start = 0)
    (hend : t.«end» + 1 = W.length)
    (hU : W.length < U64)
    (h0 : ¬ sepAt W 0) :
    ∃ S, Transcriptor.segmentation fs t = .ok S ∧ S ≠ [] ∧
      segsChain t.start S (t.«end» + 2) ∧
      S.Pairwise (fun x y => x.2 < y.1) ∧
      (∀ ab ∈ S, ∀ i, ab.1 ≤ i → i ≤ ab.2 → ¬ sepAt W i) ∧
      (∀ ab ∈ S, sepAt W (ab.2 + 1) ∨ ab.2 + 1 = W.length) ∧
      (∀ i, i ≤ t.«end» → ((∃ ab ∈ S, ab.1 ≤ i ∧ i ≤ ab.2) ↔ ¬ sepAt W i)) :=
  segmentation_whole_doc fs t W hfs hstart hend hU h0

/-- Witness for C1's amended theorem at the concrete document
`["intro", "-----", "body"]`. -/
theorem C1_partition_witness :
    ∃ S, Transcriptor.segmentation (fsOf pDoc docSep) ⟨pDoc, (0, 2)⟩ = .ok S ∧ S ≠ [] ∧
      segsChain 0 S 4 ∧
      S.Pairwise (fun x y => x.2 < y.1) ∧
      (∀ ab ∈ S, ∀ i, ab.1 ≤ i → i ≤ ab.2 → ¬ sepAt docSep i) ∧
      (∀ ab ∈ S, sepAt docSep (ab.2 + 1) ∨ ab.2 + 1 = docSep.length) ∧
      (∀ i, i ≤ 2 → ((∃ ab ∈ S, ab.1 ≤ i ∧ i ≤ ab.2) ↔ ¬ sepAt docSep i)) :=
  C1_partition_up_to_separators (fsOf pDoc docSep) ⟨pDoc, (0, 2)⟩ docSep
    (by decide) rfl (by decide) (by decide) (by decide)

/-! ## Claim C2 -/

/-- Claim C2: a Document Reference whose window contains no line containing
the separator token segments into exactly one segment, the whole range
`[R.start, R.end]`. -/
theorem C2_no_separator_single_segment (fs : FS) (t : Tablet) (W : List Str)
    (hfs : fs t.path = some (W.map Except.ok))
    (hnosep : ∀ s ∈ (W.drop t.start).take t.length, isSepLine s = false) :
    Transcriptor.segmentation fs t = .ok [(t.start, t.«end»)] := by
  have hseg := segmentation_ok fs t W hfs
  rw [segPure_nosep ((W.drop t.start).take t.length) 0 t.start hnosep] at hseg
  simpa using hseg

/-- Witness for C2 on the separator-free document `["one", "two"]`. -/
theorem C2_no_separator_witness :
    Transcriptor.segmentation (fsOf pDoc docPlain) ⟨pDoc, (0, 1)⟩ = .ok [(0, 1)] :=
  C2_no_separator_single_segment (fsOf pDoc docPlain) ⟨pDoc, (0, 1)⟩ docPlain
    (by decide) (by decide)

/-! ## Claim C3 -/

/-- Claim C3, as stated, is false: on `["-----", "x", "y"]` with reference
`(0, 2)` the first segment produced is `(0, 2^64 - 1)` — the `usize`
subtraction `0 - 1` wraps — and `2^64 - 1` does not precede the start `0`
by one (as naturals, `(2^64 - 1) + 1 ≠ 0`). -/
theorem C3_wrap_cex :
    Transcriptor.segmentation (fsOf pDoc docSepFirst) ⟨pDoc, (0, 2)⟩ =
      .ok [(0, U64 - 1), (1, 2)] ∧
    ¬ ((U64 - 1) + 1 = (0 : Nat)) := by
  refine ⟨by decide, by decide⟩

/-- Claim C3, amended: when the very first window line contains the
separator token, segmentation neither fails nor skips the boundary; its
first segment is `(R.start, 2^64 - 1)`, the wrap of the conceptual
`end = -1` (so `end ≡ start - 1 (mod 2^64)` exactly when `R.start = 0`; a
build with overflow checks panics here instead). -/
theorem C3_first_line_separator_wraps (fs : FS) (t : Tablet) (W : List Str)
    (hfs : fs t.path = some (W.map Except.ok))
    (hne : t.start < W.length)
    (hlen : 1 ≤ t.length)
    (hsep : isSepLine (W.getD t.start []) = true) :
    ∃ rest, Transcriptor.segmentation fs t = .ok ((t.start, U64 - 1) :: rest) := by
  have hseg := segmentation_ok fs t W hfs
  have hsplit : W.drop t.start = W[t.start] :: W.drop (t.start + 1) :=
    List.drop_eq_getElem_cons hne
  obtain ⟨L, hL⟩ : ∃ L, t.length = L + 1 := ⟨t.length - 1, by omega⟩
  rw [hsplit, hL, List.take_succ_cons] at hseg
  have hsepg : isSepLine W[t.start] = true := by
    rw [← List.getD_eq_getElem W [] hne]
    exact hsep
  have hstep : segPure (W[t.start] :: (W.drop (t.start + 1)).take L) 0 t.start =
      ((t.start, usub 0 1) :: (segPure ((W.drop (t.start + 1)).take L) 1 1).1,
        (segPure ((W.drop (t.start + 1)).take L) 1 1).2) := by
    simp [segPure, hsepg]
  rw [hstep, usub_zero_one] at hseg
  exact ⟨(segPure ((W.drop (t.start + 1)).take L) 1 1).1 ++
    [((segPure ((W.drop (t.start + 1)).take L) 1 1).2, t.«end»)], hseg⟩

/-- Witness for C3's amended theorem on `["-----", "x", "y"]`. -/
theorem C3_first_line_separator_witness :
    ∃ rest, Transcriptor.segmentation (fsOf pDoc docSepFirst) ⟨pDoc, (0, 2)⟩ =
      .ok ((0, U64 - 1) :: rest) :=
  C3_first_line_separator_wraps (fsOf pDoc docSepFirst) ⟨pDoc, (0, 2)⟩ docSepFirst
    (by decide) (by decide) (by decide) (by decide)

/-! ## Claim C4 -/

/-- Claim C4, as stated, is false: the reference `(2, 4)` over
`["a", "-----", "b", "-----", "c"]` is segmented into the shards
`(2, 0)` and `(2, 4)` (window-relative indices shift the segments), the
produced shard `(2, 4)` contains the separator line at index 3, and its
rendered output contains the separator token verbatim. -/
theorem C4_separator_in_rendered_shard_cex :
    shardsList (fsOf pDoc docTwoSep) ⟨pDoc, (2, 4)⟩ =
      .ok [⟨pDoc, (2, 0)⟩, ⟨pDoc, (2, 4)⟩] ∧
    Transcriptor.read (fsOf pDoc docTwoSep) ⟨pDoc, (2, 4)⟩ =
      .ok ("b\n-----\nc".toList) ∧
    containsSub ("b\n-----\nc".toList) Transcriptor.SEPARATOR = true ∧
    isSepLine (docTwoSep.getD 3 []) = true := by
  refine ⟨by decide, by decide, by decide, by decide⟩

/-- Claim C4, amended: for a whole-document reference (`start = 0`,
`end + 1` = line count, all lines readable, first line not a separator),
every separator line of the window is consumed as a boundary: it lies in
no segment produced by segmentation, hence in neither adjoining shard's
line range. (The rendered-output phrasing fails in general — see the
counterexample — because for `start > 0` the window-relative segment
indices shift into separator lines.) -/
theorem C4_separator_consumed (fs : FS) (t : Tablet) (W : List Str)
    (hfs : fs t.path = some (W.map Except.ok))
    (hstart : t.start = 0)
    (hend : t.«end» + 1 = W.length)
    (hU : W.length < U64)
    (h0 : ¬ sepAt W 0) :
    ∃ S, Transcriptor.segmentation fs t = .ok S ∧
      ∀ i, sepAt W i → ∀ ab ∈ S, ¬ (ab.1 ≤ i ∧ i ≤ ab.2) := by
  obtain ⟨S, hS, _, _, _, hInt, _, _⟩ :=
    segmentation_whole_doc fs t W hfs hstart hend hU h0
  exact ⟨S, hS, fun i hsep ab hab hin => hInt ab hab i hin.1 hin.2 hsep⟩

/-- Witness for C4's amended theorem on `["intro", "-----", "body"]`. -/
theorem C4_separator_consumed_witness :
    ∃ S, Transcriptor.segmentation (fsOf pDoc docSep) ⟨pDoc, (0, 2)⟩ = .ok S ∧
      ∀ i, sepAt docSep i → ∀ ab ∈ S, ¬ (ab.1 ≤ i ∧ i ≤ ab.2) :=
  C4_separator_consumed (fsOf pDoc docSep) ⟨pDoc, (0, 2)⟩ docSep
    (by decide) rfl (by decide) (by decide) (by decide)

/-! ## Claim C5 -/

/-- The per-line pipeline exactly as the spec words it: (1) remove the
doc-comment marker `//!` wherever it occurs, (2) replace the
`should_panic` / `no_run` fence annotations with the rust fence, (3) trim
the line, (4) append one newline. -/
def specLineFmt (line : Str) : Str :=
  trim (replace (replace (replace line Transcriptor.DOC_MARK [])
    Transcriptor.FENCE_SP Transcriptor.FENCE_RS) Transcriptor.FENCE_NR Transcriptor.FENCE_RS)
    ++ ['\n']

/-- The spec's rendering of a window: the concatenation of the per-line
pipeline over the addressed lines, in order. -/
def specRender : List Str → Str
  | [] => []
  | s :: rest => specLineFmt s ++ specRender rest

/-- The code's per-line formatting coincides with the spec's pipeline. -/
theorem line_fmt_eq_specLineFmt (l : Str) : Transcriptor.line_fmt l = specLineFmt l := rfl

/-- The code's accumulated rendering coincides with the spec's. -/
theorem renderPure_eq_specRender (w : List Str) : renderPure w = specRender w := by
  induction w with
  | nil => rfl
  | cons s rest ih => simp only [renderPure, specRender, ih, line_fmt_eq_specLineFmt]

/-- Claim C5: rendering applies the spec's four-step pipeline to each
addressed line in order and trims the concatenation as a whole; in
particular `"//! Hello"` renders to `"Hello"` and `"```no_run"` renders to
`"```rust"`. -/
theorem C5_render_pipeline (fs : FS) (t : Tablet) (W : List Str)
    (hfs : fs t.path = some (W.map Except.ok)) :
    Transcriptor.read fs t = .ok (trim (specRender ((W.drop t.start).take t.length))) ∧
    Transcriptor.read (fsOf pDoc docHello) ⟨pDoc, (0, 0)⟩ = .ok ("Hello".toList) ∧
    Transcriptor.read (fsOf pDoc docNoRun) ⟨pDoc, (0, 0)⟩ = .ok ("```rust".toList) := by
  refine ⟨?_, by decide, by decide⟩
  rw [read_ok fs t W hfs, renderPure_eq_specRender]

/-- Witness for C5 on the one-line documents `["//! Hello"]` and
`["```no_run"]`. -/
theorem C5_render_witness :
    Transcriptor.read (fsOf pDoc docHello) ⟨pDoc, (0, 0)⟩ =
      .ok (trim (specRender ((docHello.drop (Tablet.start ⟨pDoc, (0, 0)⟩)).take
        (Tablet.length ⟨pDoc, (0, 0)⟩)))) ∧
    Transcriptor.read (fsOf pDoc docHello) ⟨pDoc, (0, 0)⟩ = .ok ("Hello".toList) ∧
    Transcriptor.read (fsOf pDoc docNoRun) ⟨pDoc, (0, 0)⟩ = .ok ("```rust".toList) :=
  C5_render_pipeline (fsOf pDoc docHello) ⟨pDoc, (0, 0)⟩ docHello (by decide)

/-! ## Claims C6 and C7: error propagation -/

/-- The loop `renderLoop` fails exactly when some window line failed to read. -/
theorem renderLoop_error_iff (w : List (Except IoError Str)) :
    (∃ e, Transcriptor.renderLoop w = .error e) ↔ ∃ l ∈ w, ∃ e, l = .error e := by
  induction w with
  | nil => simp [Transcriptor.renderLoop]
  | cons l rest ih =>
    cases l with
    | error e =>
      have hres : Transcriptor.renderLoop (.error e :: rest) = .error e := rfl
      rw [hres]
      simp
    | ok s =>
      rcases h : Transcriptor.renderLoop rest with e | r
      · have hres : Transcriptor.renderLoop (.ok s :: rest) = .error e := by
          simp [Transcriptor.renderLoop, h]
        rw [hres]
        constructor
        · intro _
          obtain ⟨l, hl, he⟩ := ih.mp ⟨e, h⟩
          exact ⟨l, List.mem_cons_of_mem _ hl, he⟩
        · intro _
          exact ⟨e, rfl⟩
      · have hres : Transcriptor.renderLoop (.ok s :: rest) =
            .ok (Transcriptor.line_fmt s ++ r) := by
          simp [Transcriptor.renderLoop, h]
        rw [hres]
        constructor
        · rintro ⟨e, he⟩
          cases he
        · rintro ⟨l, hl, e, he⟩
          rcases List.mem_cons.mp hl with rfl | hmem
          · cases he
          · obtain ⟨e', he'⟩ := ih.mpr ⟨l, hmem, e, he⟩
            rw [h] at he'
            cases he'

/-- The loop `segLoop` fails exactly when some window line failed to read. -/
theorem segLoop_error_iff (w : List (Except IoError Str)) :
    ∀ n p, (∃ e, Transcriptor.segLoop w n p = .error e) ↔ ∃ l ∈ w, ∃ e, l = .error e := by
  induction w with
  | nil => intro n p; simp [Transcriptor.segLoop]
  | cons l rest ih =>
    intro n p
    cases l with
    | error e =>
      have hres : Transcriptor.segLoop (.error e :: rest) n p = .error e := rfl
      rw [hres]
      simp
    | ok s =>
      by_cases hsl : containsSub s Transcriptor.SEPARATOR
      · rcases h : Transcriptor.segLoop rest (n + 1) (n + 1) with e | ⟨segs, pf⟩
        · have hres : Transcriptor.segLoop (.ok s :: rest) n p = .error e := by
            simp [Transcriptor.segLoop, hsl, h]
          rw [hres]
          constructor
          · intro _
            obtain ⟨l, hl, he⟩ := (ih (n + 1) (n + 1)).mp ⟨e, h⟩
            exact ⟨l, List.mem_cons_of_mem _ hl, he⟩
          · intro _
            exact ⟨e, rfl⟩
        · have hres : Transcriptor.segLoop (.ok s :: rest) n p =
              .ok ((p, usub n 1) :: segs, pf) := by
            simp [Transcriptor.segLoop, hsl, h]
          rw [hres]
          constructor
          · rintro ⟨e, he⟩
            cases he
          · rintro ⟨l, hl, e, he⟩
            rcases List.mem_cons.mp hl with rfl | hmem
            · cases he
            · obtain ⟨e', he'⟩ := (ih (n + 1) (n + 1)).mpr ⟨l, hmem, e, he⟩
              rw [h] at he'
              cases he'
      · have hres : Transcriptor.segLoop (.ok s :: rest) n p =
            Transcriptor.segLoop rest (n + 1) p := by
          simp [Transcriptor.segLoop, hsl]
        rw [hres]
        rw [ih (n + 1) p]
        constructor
        · rintro ⟨l, hl, he⟩
          exact ⟨l, List.mem_cons_of_mem _ hl, he⟩
        · rintro ⟨l, hl, e, he⟩
          rcases List.mem_cons.mp hl with rfl | hmem
          · cases he
          · exact ⟨l, hmem, e, he⟩

/-- A filesystem with one file whose second line fails to read. -/
def fsBadLine : FS :=
  fun q => if q = pDoc then some [Except.ok (("a").toList), Except.error (.lineRead 1)]
    else none

/-- Claim C6: `read` fails (with an I/O error) exactly when the document
cannot be opened or one of its addressed lines cannot be read, and on an
all-readable file it returns the complete rendered string — never a
partial result. -/
theorem C6_read_all_or_nothing (fs : FS) (t : Tablet) :
    ((∃ e, Transcriptor.read fs t = .error e) ↔
      (fs t.path = none ∨
        ∃ ls, fs t.path = some ls ∧ ∃ l ∈ Transcriptor.window t ls, ∃ e, l = .error e)) ∧
    (∀ W : List Str, fs t.path = some (W.map Except.ok) →
      Transcriptor.read fs t = .ok (trim (renderPure ((W.drop t.start).take t.length)))) := by
  refine ⟨?_, fun W hfs => read_ok fs t W hfs⟩
  rcases hfs : fs t.path with _ | ls
  · constructor
    · intro _
      exact Or.inl rfl
    · intro _
      exact ⟨IoError.notFound, by simp [Transcriptor.read, hfs]⟩
  · rcases h : Transcriptor.renderLoop (Transcriptor.window t ls) with e | r
    · have hres : Transcriptor.read fs t = .error e := by
        simp [Transcriptor.read, hfs, h]
      rw [hres]
      constructor
      · intro _
        obtain ⟨l, hl, he⟩ := (renderLoop_error_iff _).mp ⟨e, h⟩
        exact Or.inr ⟨ls, rfl, l, hl, he⟩
      · intro _
        exact ⟨e, rfl⟩
    · have hres : Transcriptor.read fs t = .ok (trim r) := by
        simp [Transcriptor.read, hfs, h]
      rw [hres]
      constructor
      · rintro ⟨e, he⟩
        cases he
      · rintro (hnone | ⟨ls', hls', l, hl, e, he⟩)
        · cases hnone
        · cases hls'
          obtain ⟨e', he'⟩ := (renderLoop_error_iff _).mpr ⟨l, hl, e, he⟩
          rw [h] at he'
          cases he'

/-- Witness for C6 on a file whose second line fails to read. -/
theorem C6_read_error_witness :
    ((∃ e, Transcriptor.read fsBadLine ⟨pDoc, (0, 1)⟩ = .error e) ↔
      (fsBadLine (Tablet.path ⟨pDoc, (0, 1)⟩) = none ∨
        ∃ ls, fsBadLine (Tablet.path ⟨pDoc, (0, 1)⟩) = some ls ∧
          ∃ l ∈ Transcriptor.window ⟨pDoc, (0, 1)⟩ ls, ∃ e, l = .error e)) ∧
    (∀ W : List Str, fsBadLine (Tablet.path ⟨pDoc, (0, 1)⟩) = some (W.map Except.ok) →
      Transcriptor.read fsBadLine ⟨pDoc, (0, 1)⟩ =
        .ok (trim (renderPure ((W.drop (Tablet.start ⟨pDoc, (0, 1)⟩)).take
          (Tablet.length ⟨pDoc, (0, 1)⟩))))) :=
  C6_read_all_or_nothing fsBadLine ⟨pDoc, (0, 1)⟩

/-- Claim C7: `segmentation` fails (with an I/O error) exactly when the
document cannot be opened or one of the window's lines cannot be read; the
error value is returned to the caller, not recovered. -/
theorem C7_segmentation_error_iff (fs : FS) (t : Tablet) :
    (∃ e, Transcriptor.segmentation fs t = .error e) ↔
      (fs t.path = none ∨
        ∃ ls, fs t.path = some ls ∧ ∃ l ∈ Transcriptor.window t ls, ∃ e, l = .error e) := by
  rcases hfs : fs t.path with _ | ls
  · constructor
    · intro _
      exact Or.inl rfl
    · intro _
      exact ⟨IoError.notFound, by simp [Transcriptor.segmentation, hfs]⟩
  · rcases h : Transcriptor.segLoop (Transcriptor.window t ls) 0 t.start with e | ⟨segs, pf⟩
    · have hres : Transcriptor.segmentation fs t = .error e := by
        simp [Transcriptor.segmentation, hfs, h]
      rw [hres]
      constructor
      · intro _
        obtain ⟨l, hl, he⟩ := (segLoop_error_iff _ 0 t.start).mp ⟨e, h⟩
        exact Or.inr ⟨ls, rfl, l, hl, he⟩
      · intro _
        exact ⟨e, rfl⟩
    · have hres : Transcriptor.segmentation fs t = .ok (segs ++ [(pf, t.«end»)]) := by
        simp [Transcriptor.segmentation, hfs, h]
      rw [hres]
      constructor
      · rintro ⟨e, he⟩
        cases he
      · rintro (hnone | ⟨ls', hls', l, hl, e, he⟩)
        · cases hnone
        · cases hls'
          obtain ⟨e', he'⟩ := (segLoop_error_iff _ 0 t.start).mpr ⟨l, hl, e, he⟩
          rw [h] at he'
          cases he'

/-! ## Claim C8 -/

/-- A second sample path. -/
def pDoc2 : Str := "extra.rs".toList

/-- A filesystem with two readable documents. -/
def fsTwo : FS :=
  fun q => if q = pDoc then some (docSep.map Except.ok)
    else if q = pDoc2 then some (docPlain.map Except.ok) else none

/-- Claim C8: for readable, non-empty documents, `catalog` returns one
whole-file Document Reference per path, `(path, (0, lineCount - 1))`, in
the order of the path list. (The fixed path list `registry::TABLETS` is
external configuration; the theorem quantifies over any ordered list.) -/
theorem C8_catalog_whole_ranges (fs : FS) (paths : List Str)
    (h : ∀ p ∈ paths, fs p ≠ none ∧ (fs p).getD [] ≠ [] ∧ ((fs p).getD []).length < U64) :
    Registry.catalog fs paths =
      some (paths.map fun p => ⟨p, (0, ((fs p).getD []).length - 1)⟩) := by
  induction paths with
  | nil => rfl
  | cons p rest ih =>
    obtain ⟨h1, h2, h3⟩ := h p (List.mem_cons_self p rest)
    rcases hfs : fs p with _ | ls
    · exact absurd hfs h1
    · rw [hfs] at h2 h3
      simp only [Option.getD_some] at h2 h3
      have hlen : 1 ≤ ls.length := List.length_pos.mpr h2
      have ht : Registry.tablet fs p = some ⟨p, (0, ls.length - 1)⟩ := by
        simp only [Registry.tablet, hfs]
        rw [usub_one ls.length hlen h3]
      have hrest := ih fun q hq => h q (List.mem_cons_of_mem p hq)
      simp only [Registry.catalog, ht, hrest, List.map_cons]
      rw [hfs]
      simp

/-- Witness for C8 on a two-document filesystem. -/
theorem C8_catalog_witness :
    Registry.catalog fsTwo [pDoc, pDoc2] =
      some ([pDoc, pDoc2].map fun p => ⟨p, (0, ((fsTwo p).getD []).length - 1)⟩) :=
  C8_catalog_whole_ranges fsTwo [pDoc, pDoc2] (by decide)

/-! ## Claim C9 -/

/-- When every catalog tablet's `shards()` succeeds, the `flat_map` loop
concatenates exactly the per-tablet shard lists, in order. -/
theorem heapGo_eq_flat (fs : FS) (sh : Tablet → List Tablet) :
    ∀ ts : List Tablet, (∀ t ∈ ts, shardsOpt fs t = some (sh t)) →
      Registry.heapGo fs ts = some ((ts.map sh).flatten) := by
  intro ts
  induction ts with
  | nil => intro _; rfl
  | cons t rest ih =>
    intro h
    have hrest := ih fun q hq => h q (List.mem_cons_of_mem t hq)
    simp only [Registry.heapGo, h t (List.mem_cons_self t rest), hrest, List.map_cons,
      List.flatten_cons]

/-- Claim C9: `heap()` is the concatenation, in document order, of the
shards of every tablet of `catalog()` — `catalog().flatMap(shards)` — with
each document's sub-sections in source line order. -/
theorem C9_heap_is_catalog_flat_map (fs : FS) (paths : List Str)
    (ts : List Tablet) (sh : Tablet → List Tablet)
    (hcat : Registry.catalog fs paths = some ts)
    (hsh : ∀ t ∈ ts, shardsOpt fs t = some (sh t)) :
    Registry.heap fs paths = some ((ts.map sh).flatten) := by
  simp only [Registry.heap, hcat]
  exact heapGo_eq_flat fs sh ts hsh

/-- Witness for C9 on the document `["intro", "-----", "body"]`: the heap
is the flattened shard list `[(0, 0), (2, 2)]` of the single tablet. -/
theorem C9_heap_witness :
    Registry.heap (fsOf pDoc docSep) [pDoc] =
      some ((([(⟨pDoc, (0, 2)⟩ : Tablet)]).map
        fun _ => ([⟨pDoc, (0, 0)⟩, ⟨pDoc, (2, 2)⟩] : List Tablet)).flatten) :=
  C9_heap_is_catalog_flat_map (fsOf pDoc docSep) [pDoc] [⟨pDoc, (0, 2)⟩]
    (fun _ => ([⟨pDoc, (0, 0)⟩, ⟨pDoc, (2, 2)⟩] : List Tablet)) (by decide) (by decide)

/-! ## Claim C10 -/

/-- Claim C10, as stated, is false in the unchecked-arithmetic semantics:
on the degenerate shard `(1, 0)` (end = start − 1) the subtraction wraps,
`length()` is 0, and `read` totally succeeds with the empty string — the
two operations are not partial there. -/
theorem C10_degenerate_total_cex :
    Tablet.length ⟨pDoc, (1, 0)⟩ = 0 ∧
    Transcriptor.read (fsOf pDoc docSep) ⟨pDoc, (1, 0)⟩ = .ok [] := by
  refine ⟨by decide, by decide⟩

/-- Claim C10, amended: for `start ≤ end` (within `usize` range),
`length()` returns `end − start + 1`; on a degenerate shard with
`end = start − 1` — as segmentation emits after consecutive separators —
the unchecked `usize` subtraction wraps so that `length()` returns 0,
`read`'s window is empty, and `read` returns the empty string (a build
with overflow checks panics instead; the language fixes no single
result). -/
theorem C10_length_and_degenerate :
    (∀ t : Tablet, t.start ≤ t.«end» → t.«end» < U64 → t.«end» - t.start + 1 < U64 →
      t.length = t.«end» - t.start + 1) ∧
    (∀ (t : Tablet) (fs : FS) (ls : List (Except IoError Str)),
      t.«end» + 1 = t.start → t.start < U64 → fs t.path = some ls →
      t.length = 0 ∧ Transcriptor.read fs t = .ok []) := by
  constructor
  · intro t h1 h2 h3
    unfold Tablet.length usub U64
    unfold U64 at h2 h3
    omega
  · intro t fs ls h1 h2 hfs
    have hlen : t.length = 0 := by
      unfold Tablet.length usub U64
      unfold U64 at h2
      omega
    refine ⟨hlen, ?_⟩
    simp [Transcriptor.read, hfs, Transcriptor.window, hlen, Transcriptor.renderLoop, trim]

/-- Witness for C10's amended theorem: `length (0, 1) = 2`, and on the
degenerate shard `(1, 0)` over a readable file, `length = 0` and `read`
returns the empty string. -/
theorem C10_length_witness :
    Tablet.length ⟨pDoc, (0, 1)⟩ = 2 ∧
    (Tablet.length ⟨pDoc, (1, 0)⟩ = 0 ∧
      Transcriptor.read (fsOf pDoc docPlain) ⟨pDoc, (1, 0)⟩ = .ok []) :=
  ⟨C10_length_and_degenerate.1 ⟨pDoc, (0, 1)⟩ (by decide) (by decide) (by decide),
    C10_length_and_degenerate.2 ⟨pDoc, (1, 0)⟩ (fsOf pDoc docPlain)
      (docPlain.map Except.ok) (by decide) (by decide) (by decide)⟩
